import Mathlib

/-!
Shallow embedding of the capture/solve/type coordination engine of
`src/main.py`.  Python strings are modelled as `List Char`, the mutable
module-level state as explicit structures, the concurrent solve protocol as a
small-step transition relation, and the typing hot loop as a fuel-indexed
recursion (the fuel is an upper bound on the remaining iterations, which the
loop variable makes explicit).
-/

/-- Python `str` whitespace class `\s`, as used by the regexes of `main.py`
(space, tab, newline, carriage return, vertical tab, form feed). -/
def pySpace (c : Char) : Bool :=
  c = ' ' || c = '\t' || c = '\n' || c = '\r' || c = '\x0b' || c = '\x0c'

/-- Model of Python `str.strip()`: remove leading and trailing whitespace. -/
def pyStrip (l : List Char) : List Char :=
  ((l.dropWhile pySpace).reverse.dropWhile pySpace).reverse

/-- Helper for the MULTILINE `\s+$` substitution: does the whitespace run
starting at this suffix reach a `$` position (a `'\n'`, or the end of the
string) before hitting a non-whitespace character?  A whitespace character is
deleted by `re.sub` with pattern `\s+$` and flag `re.MULTILINE` (main.py line
490) exactly when this holds for the rest of the string after it: the
leftmost-longest scan removes precisely the whitespace characters from which a
`$` position is reachable through whitespace. -/
def wsRunHitsNL : List Char → Bool
  | [] => true
  | c :: t => if c = '\n' then true else if pySpace c then wsRunHitsNL t else false

/-- Effect of the first normalization regex of `generate_ai_response`
(main.py line 490), `re.sub` with pattern `\s+$` under `re.MULTILINE`:
every whitespace character that is followed, through whitespace only, by a
line end or the end of the string is removed. -/
def stripTrailWS : List Char → List Char
  | [] => []
  | c :: t =>
      if pySpace c && wsRunHitsNL t then stripTrailWS t
      else c :: stripTrailWS t

/-- Effect of the second normalization regex of `generate_ai_response`
(main.py line 491), replacing every maximal run of two or more newlines by a
single newline: equivalently, every newline immediately followed by another
newline is dropped, keeping only the last newline of each run. -/
def collapseNL : List Char → List Char
  | [] => []
  | [c] => [c]
  | c :: d :: t =>
      if c = '\n' && d = '\n' then collapseNL (d :: t)
      else c :: collapseNL (d :: t)

/-- Freeform-response normalization of `generate_ai_response` (main.py lines
490-491): strip the MULTILINE trailing whitespace, then collapse newline
runs. -/
def clean_response (l : List Char) : List Char :=
  collapseNL (stripTrailWS l)

/-- Digit accumulator for Python `int()`: after the first digit, further
digits may be separated by single underscores (Python's grouping rule); any
other character, a trailing underscore, or a doubled underscore is a
`ValueError`, modelled as `none`. -/
def pyDigitsAux : List Char → Nat → Option Nat
  | [], acc => some acc
  | '_' :: c :: t, acc =>
      if c.isDigit then pyDigitsAux t (acc * 10 + (c.toNat - 48)) else none
  | c :: t, acc =>
      if c.isDigit then pyDigitsAux t (acc * 10 + (c.toNat - 48)) else none

/-- Nonempty digit sequence for Python `int()`: the first character must be a
decimal digit. -/
def pyDigitsCore : List Char → Option Nat
  | [] => none
  | c :: t => if c.isDigit then pyDigitsAux t (c.toNat - 48) else none

/-- Model of Python `int(s)` on an already-stripped ASCII string: an optional
sign followed by a nonempty digit sequence (with optional single underscores
between digits); every other shape raises `ValueError`, modelled as `none`. -/
def pyInt (l : List Char) : Option Int :=
  match l with
  | '+' :: t => (pyDigitsCore t).map (fun n => (n : Int))
  | '-' :: t => (pyDigitsCore t).map (fun n => -(n : Int))
  | t => (pyDigitsCore t).map (fun n => (n : Int))

/-- Answer-index resolution of `get_correct_option_index` (main.py lines
751-798): the model reply text is stripped, parsed with `int`, and accepted
only when `1 <= index <= num_options`; a parse failure (the `ValueError`
caught by the surrounding `except`, like any transport error) and an
out-of-range value both yield `None`, modelled as `none`. -/
def get_correct_option_index (responseText : List Char) (num_options : Nat) : Option Int :=
  let answer_text := pyStrip responseText
  match pyInt answer_text with
  | none => none
  | some index =>
      if 1 ≤ index ∧ index ≤ (num_options : Int) then some index else none

/-- Answer-index resolution of `get_correct_option_index_with_context`
(main.py lines 801-832); the parse-and-validate logic is duplicated verbatim
from the single-image resolver. -/
def get_correct_option_index_with_context (responseText : List Char) (num_options : Nat) :
    Option Int :=
  let answer_text := pyStrip responseText
  match pyInt answer_text with
  | none => none
  | some index =>
      if 1 ≤ index ∧ index ≤ (num_options : Int) then some index else none

/-- Configured request threshold `REQUEST_LIMIT_BEFORE_SWITCH`
(main.py line 20). -/
def REQUEST_LIMIT_BEFORE_SWITCH : Nat := 20

/-- The counter/credential pair guarded by `api_key_lock` (main.py lines
21-23).  The two key values are parameters of the model: the repository ships
the placeholders `API_KEY_PRIMARY = ""` and `API_KEY_SECONDARY = ""`, to be
filled in by the user before use. -/
structure ApiKeyState where
  api_request_count : Nat
  current_api_key : List Char
deriving DecidableEq

/-- One call of `increment_api_request` (main.py lines 101-126): increment the
counter and, if it has reached the threshold while the primary key is still
active, install the secondary key.  `api_key_lock` serializes calls, so a
sequence of (possibly concurrent) calls is modelled by iterating this
function. -/
def increment_api_request (primary secondary : List Char) (s : ApiKeyState) : ApiKeyState :=
  let c := s.api_request_count + 1
  if REQUEST_LIMIT_BEFORE_SWITCH ≤ c ∧ s.current_api_key = primary then
    { api_request_count := c, current_api_key := secondary }
  else
    { api_request_count := c, current_api_key := s.current_api_key }

/-- State of the counter/credential pair after `n` serialized calls of
`increment_api_request`, starting from the launch state (counter `0`, primary
key active; main.py lines 21-22). -/
def apiRun (primary secondary : List Char) : Nat → ApiKeyState
  | 0 => { api_request_count := 0, current_api_key := primary }
  | n + 1 => increment_api_request primary secondary (apiRun primary secondary n)

/-- Region validation shared by `solve_current_mcq`,
`capture_subjective_screenshot` and `capture_context` (main.py lines 235-249,
383-398 and 732-742): from the two captured corner points compute
`width = x2 - x1` and `height = y2 - y1`; a non-positive width or height logs
an invalid-region error and returns before any screenshot is taken (modelled
by `none`), otherwise `pyautogui.screenshot` is called with exactly the
region `(x1, y1, width, height)`. -/
def region_from_clicks (x1 y1 x2 y2 : Int) : Option (Int × Int × Int × Int) :=
  let width := x2 - x1
  let height := y2 - y1
  if width ≤ 0 ∨ height ≤ 0 then none
  else some (x1, y1, width, height)

/-- State of the auto-typing emission loop of `auto_type_response` (main.py
lines 540-645): `i` is the loop index into the payload, `pos` the shared
`current_typing_position` (updated only after a regular character has been
written), `braces` the `brace_stack` of open-brace indices, and `out` the
sequence of units emitted so far (written characters; the simulated Enter of
the newline branch is recorded as `'\n'`). -/
structure TypingLoopState where
  i : Nat
  pos : Nat
  braces : List Nat
  out : List Char
deriving DecidableEq

/-- The inner indentation scan of the newline branch (main.py lines 617-633):
starting at `j`, advance over consecutive `' '` characters; the result is the
first index at or after `j` holding a non-space character (or the payload
length).  Both the in-code-block branch (`i = j - 1` when spaces were found,
`i` unchanged otherwise, then `i += 1`) and the outside branch (`i = j - 1`
then `i += 1`) leave the loop index at exactly this value. -/
def skipIndent (p : List Char) (j : Nat) : Nat :=
  j + ((p.drop j).takeWhile (fun c => c = ' ')).length

/-- One productive iteration of the emission loop (main.py lines 598-645),
taken when the loop is not paused: update the brace stack from the current
character, then either press Enter and skip the following indentation (for a
newline or carriage return, leaving `current_typing_position` untouched) or
write the character, advance, and publish the new cursor. -/
def auto_type_step (p : List Char) (s : TypingLoopState) : TypingLoopState :=
  match p.get? s.i with
  | none => s
  | some char =>
    let braces :=
      if char = '{' then s.i :: s.braces
      else if char = '}' then s.braces.tail
      else s.braces
    if char = '\n' ∨ char = '\r' then
      { s with i := skipIndent p (s.i + 1), braces := braces, out := s.out ++ ['\n'] }
    else
      { s with i := s.i + 1, pos := s.i + 1, braces := braces, out := s.out ++ [char] }

/-- The `while i < len(ai_response_text) and is_typing_active` loop (main.py
line 570) with an explicit iteration bound; each productive iteration
strictly increases `i`, so `p.length` iterations always suffice. -/
def auto_type_loop (p : List Char) : Nat → TypingLoopState → TypingLoopState
  | 0, s => s
  | fuel + 1, s =>
      if s.i < p.length then auto_type_loop p fuel (auto_type_step p s) else s

/-- A complete unpaused run of the emission loop from state `s`. -/
def auto_type_run (p : List Char) (s : TypingLoopState) : TypingLoopState :=
  auto_type_loop p p.length s

/-- The emission loop with a schedule of pause injections: a `true` entry
means an incidental left click set `is_typing_paused` just before this
iteration's top-of-loop check, so the iteration only waits on
`resume_typing_event`, clears the pause flag, restarts the mouse listener and
releases the held modifier keys (main.py lines 571-596) — none of which
touches `i`, `current_typing_position`, the brace stack or the emitted
output; a `false` entry is a normal productive iteration.  After the finite
schedule is exhausted the loop runs to completion unpaused. -/
def auto_type_loop_paused (p : List Char) : List Bool → TypingLoopState → TypingLoopState
  | [], s => auto_type_run p s
  | b :: sched, s =>
      if s.i < p.length then
        if b then auto_type_loop_paused p sched s
        else auto_type_loop_paused p sched (auto_type_step p s)
      else s

/-- The loop state at entry of the emission loop (main.py lines 525-527 and
542-545): index `0`, cursor `0`, empty brace stack, nothing emitted. -/
def typingLoopInit : TypingLoopState :=
  { i := 0, pos := 0, braces := [], out := [] }

/-- The shared typing-session flags (main.py lines 61-63). -/
structure TypingSession where
  is_typing_active : Bool
  is_typing_paused : Bool
  current_typing_position : Nat
deriving DecidableEq

/-- Entry phase of `auto_type_response` (main.py lines 517-539), as started
unconditionally in a fresh thread by the hotkey handler `on_type_response`
(main.py lines 669-672).  Whatever the previous session state, the operation
immediately overwrites `is_typing_active := true`, `is_typing_paused := false`
and `current_typing_position := 0`; `payload` is the value of
`ai_response_text` it then observes (after the bounded wait when the text was
initially absent).  The returned boolean is `true` exactly when the emission
loop is entered; the only failing path is an absent payload, which resets
`is_typing_active` and returns. -/
def auto_type_start (_prev : TypingSession) (payload : Option (List Char)) :
    TypingSession × Bool :=
  match payload with
  | none =>
      ({ is_typing_active := false, is_typing_paused := false,
         current_typing_position := 0 }, false)
  | some _ =>
      ({ is_typing_active := true, is_typing_paused := false,
         current_typing_position := 0 }, true)

/-- One pointer event as delivered by the pynput mouse listener. -/
structure MouseEvent where
  x : Int
  y : Int
  left : Bool
  pressed : Bool
deriving DecidableEq

/-- The `on_click` callback of `capture_single_click` (main.py lines 858-863):
a qualifying left-button press stores its coordinates, sets the `clicked`
event and returns `False` (stopping the listener); every other event leaves
the stored position unchanged and keeps listening. -/
def single_click_on_click (position : Option (Int × Int)) (e : MouseEvent) :
    Option (Int × Int) × Bool :=
  if e.pressed && e.left then (some (e.x, e.y), false) else (position, true)

/-- Feed the observed event stream to the callback until it stops the
listener or the stream ends. -/
def runMouseListener (position : Option (Int × Int)) :
    List MouseEvent → Option (Int × Int)
  | [] => position
  | e :: evs =>
      let r := single_click_on_click position e
      if r.2 then runMouseListener r.1 evs else r.1

/-- Listener lifecycle actions of the transient listener. -/
inductive ListenerAct
  | register
  | deregister
deriving DecidableEq

/-- The whole of `capture_single_click` (main.py lines 835-868) on a finite
observed event stream: the `with mouse.Listener(...)` block registers the
transient listener, the body blocks on `clicked.wait()`, released by the
first qualifying press, and the block exit — taken on every way out of the
body, normal or exceptional — stops the listener before the function returns
`position`.  A stream with no qualifying press corresponds to the call still
blocking (the wait has no timeout); `position` is then still `none`, the
value the function would return if the wait were ever interrupted. -/
def capture_single_click (evs : List MouseEvent) :
    List ListenerAct × Option (Int × Int) :=
  (ListenerAct.register :: [ListenerAct.deregister], runMouseListener none evs)

/-- The transient image files of the scratch directories `screenshots/` and
`screenshots/subjective/` (main.py lines 30-41 and 394-396). -/
inductive ImgFile
  | context
  | question
  | subjectiveShot (n : Nat)
deriving DecidableEq

/-- Disk state: the collection of captured image files present.  Saving a
screenshot makes the file present (overwriting is idempotent for
presence). -/
def fsSave (f : ImgFile) (fs : List ImgFile) : List ImgFile :=
  if f ∈ fs then fs else f :: fs

/-- Model of `os.remove(path)` on the disk state. -/
def fsRemove (f : ImgFile) (fs : List ImgFile) : List ImgFile :=
  fs.filter (fun g => g != f)

/-- The `finally` block of the MCQ `ai_worker` (main.py lines 326-328): when
the background inference finishes — normally or by exception — the question
image is deleted. -/
def ai_worker_cleanup (fs : List ImgFile) : List ImgFile :=
  fsRemove ImgFile.question fs

/-- File effect of the clear-state command `on_clear_context` (main.py lines
698-711): besides resetting the in-memory flags, it removes exactly the files
listed in `SUBJECTIVE_SCREENSHOT_DIR`; no file of the outer `screenshots/`
directory (the context or question image) is touched. -/
def on_clear_context_files (fs : List ImgFile) : List ImgFile :=
  fs.filter (fun g =>
    match g with
    | ImgFile.subjectiveShot _ => false
    | _ => true)

/-- Program counter of the main solve task inside `solve_current_mcq`, from
the point where all option positions have been captured and validated
(main.py line 299) to completion. -/
inductive SolvePc
  | atPublishOptions
  | atSpawnWorker
  | atWaitAi
  | atValidate
  | atClick
  | atDone
deriving DecidableEq

/-- Program counter of the background `ai_worker` thread (main.py lines
303-328). -/
inductive WorkerPc
  | notSpawned
  | atInference
  | atSetEvent
  | wDone
deriving DecidableEq

/-- Joint state of one solve operation: the two tasks' program counters plus
the shared coordination globals of main.py lines 199-203.  `captured` is the
option list collected during the capture phase (immutable afterwards) and
`num_options` the main task's local variable of that name (main.py line
291). -/
structure SolveState where
  captured : List (Int × Int)
  mainPc : SolvePc
  workerPc : WorkerPc
  option_positions_ready : Bool
  ai_response_ready : Bool
  correct_index_global : Option Int
  option_positions_global : Option (List (Int × Int))
  num_options : Nat

/-- State at main.py line 299, just after the events and globals were reset
(lines 217-220) and the option positions were captured. -/
def solveInit (opts : List (Int × Int)) : SolveState :=
  { captured := opts
    mainPc := SolvePc.atPublishOptions
    workerPc := WorkerPc.notSpawned
    option_positions_ready := false
    ai_response_ready := false
    correct_index_global := none
    option_positions_global := none
    num_options := opts.length }

/-- Interleaved small-step semantics of one solve operation (main.py lines
299-357 together with the spawned `ai_worker`, lines 303-328): at each step
either the main task or the worker thread (once spawned) executes its next
statement.  The worker's inference result `v` is arbitrary; `none` models
every failure path (exception or unparseable reply).
`publishOptions` is lines 299-300, `spawnWorker` line 330, `workerInference`
lines 305-325, `workerSetEvent` line 327, `waitAi` line 336 (enabled only
once the event is set), `validateFail` lines 339-347, `validateOk` the fall
through to line 350, and `click` lines 350-354. -/
inductive SolveStep : SolveState → SolveState → Prop
  | publishOptions (s : SolveState) (h : s.mainPc = SolvePc.atPublishOptions) :
      SolveStep s { s with
        option_positions_global := some s.captured
        option_positions_ready := true
        mainPc := SolvePc.atSpawnWorker }
  | spawnWorker (s : SolveState) (h : s.mainPc = SolvePc.atSpawnWorker)
      (hw : s.workerPc = WorkerPc.notSpawned) :
      SolveStep s { s with workerPc := WorkerPc.atInference, mainPc := SolvePc.atWaitAi }
  | workerInference (s : SolveState) (v : Option Int)
      (h : s.workerPc = WorkerPc.atInference) :
      SolveStep s { s with correct_index_global := v, workerPc := WorkerPc.atSetEvent }
  | workerSetEvent (s : SolveState) (h : s.workerPc = WorkerPc.atSetEvent) :
      SolveStep s { s with ai_response_ready := true, workerPc := WorkerPc.wDone }
  | waitAi (s : SolveState) (h : s.mainPc = SolvePc.atWaitAi)
      (hr : s.ai_response_ready = true) :
      SolveStep s { s with mainPc := SolvePc.atValidate }
  | validateFail (s : SolveState) (h : s.mainPc = SolvePc.atValidate)
      (hv : s.correct_index_global = none ∨
        ∃ i, s.correct_index_global = some i ∧ (i < 1 ∨ (s.num_options : Int) < i)) :
      SolveStep s { s with mainPc := SolvePc.atDone }
  | validateOk (s : SolveState) (i : Int) (h : s.mainPc = SolvePc.atValidate)
      (hv : s.correct_index_global = some i) (h1 : 1 ≤ i)
      (h2 : i ≤ (s.num_options : Int)) :
      SolveStep s { s with mainPc := SolvePc.atClick }
  | click (s : SolveState) (h : s.mainPc = SolvePc.atClick) :
      SolveStep s { s with mainPc := SolvePc.atDone }

/-- States reachable from the start of the solve rendezvous under every
interleaving. -/
def SolveReachable (opts : List (Int × Int)) (s : SolveState) : Prop :=
  Relation.ReflTransGen SolveStep (solveInit opts) s

/-- Is the current position a MULTILINE line end, i.e. the end of the string
or a position immediately before a newline?  (Applied to the suffix following
a character.) -/
def atLineEnd : List Char → Bool
  | [] => true
  | d :: _ => d = '\n'

/-- Property of a normalized string: no whitespace character stands
immediately before a line end — no line carries trailing whitespace and the
string carries no trailing whitespace (newlines included). -/
def noTrailWS : List Char → Bool
  | [] => true
  | c :: t => (!(pySpace c) || !(atLineEnd t)) && noTrailWS t

/-- Property of a normalized string: no two consecutive newlines occur, i.e.
no blank line remains. -/
def noDoubleNL : List Char → Bool
  | [] => true
  | [_] => true
  | c :: d :: t => (!(c = '\n' && d = '\n')) && noDoubleNL (d :: t)

/-- Concrete option list for exercising the solve rendezvous: two recorded
option coordinates. -/
def solveWitnessOpts : List (Int × Int) := [(0, 0), (1, 1)]

/-- Concrete joint state at the click step of a completed interleaving of the
solve rendezvous over `solveWitnessOpts` with inference answer `2`. -/
def solveClickWitnessState : SolveState :=
  { captured := solveWitnessOpts
    mainPc := SolvePc.atClick
    workerPc := WorkerPc.wDone
    option_positions_ready := true
    ai_response_ready := true
    correct_index_global := some 2
    option_positions_global := some solveWitnessOpts
    num_options := 2 }

/-- Unfolding helper: the resolver is the stripped parse followed by the
range check. -/
theorem get_correct_option_index_eq (t : List Char) (N : Nat) :
    get_correct_option_index t N
      = match pyInt (pyStrip t) with
        | none => none
        | some index =>
            if 1 ≤ index ∧ index ≤ (N : Int) then some index else none := rfl

/-- Claim C4: for every model response string and every option count `N`, the
index resolver (in both its single-image and its context variant, whose
parse-and-validate logic is identical) returns either an integer index `i`
with `1 ≤ i ≤ N` or a failure (`none`); a non-numeric response or an
out-of-range integer always yields failure and never a clamped, defaulted or
guessed index. -/
theorem option_index_in_range_or_none (t : List Char) (N : Nat) :
    (∀ i : Int, get_correct_option_index t N = some i → 1 ≤ i ∧ i ≤ (N : Int))
  ∧ (pyInt (pyStrip t) = none → get_correct_option_index t N = none)
  ∧ (∀ i : Int, pyInt (pyStrip t) = some i → ¬(1 ≤ i ∧ i ≤ (N : Int)) →
      get_correct_option_index t N = none)
  ∧ get_correct_option_index_with_context t N = get_correct_option_index t N := by
  refine ⟨?_, ?_, ?_, rfl⟩
  · intro i hi
    rw [get_correct_option_index_eq] at hi
    cases h : pyInt (pyStrip t) with
    | none => rw [h] at hi; exact absurd hi (by simp)
    | some j =>
        rw [h] at hi
        have hi2 : (if 1 ≤ j ∧ j ≤ (N : Int) then some j else none) = some i := hi
        by_cases hr : 1 ≤ j ∧ j ≤ (N : Int)
        · rw [if_pos hr] at hi2
          cases hi2
          exact hr
        · rw [if_neg hr] at hi2
          exact absurd hi2 (by simp)
  · intro h
    rw [get_correct_option_index_eq, h]
  · intro i hi hr
    rw [get_correct_option_index_eq, hi]
    exact if_neg hr

/-- Claim C7: for corner points with `x2 > x1` and `y2 > y1` the region
capture screenshots exactly the region `(x1, y1, x2 - x1, y2 - y1)`; for
every degenerate pair (`x2 ≤ x1` or `y2 ≤ y1`) the operation reports an
invalid region and performs no screenshot capture. -/
theorem region_capture_exact_or_rejected (x1 y1 x2 y2 : Int) :
    (x1 < x2 ∧ y1 < y2 →
      region_from_clicks x1 y1 x2 y2 = some (x1, y1, x2 - x1, y2 - y1))
  ∧ ((x2 ≤ x1 ∨ y2 ≤ y1) → region_from_clicks x1 y1 x2 y2 = none) := by
  constructor
  · rintro ⟨h1, h2⟩
    unfold region_from_clicks
    rw [if_neg (by omega)]
  · intro h
    unfold region_from_clicks
    rw [if_pos (by omega)]

/-- Witness for claim C7 at the concrete corner pairs `(10,10),(200,200)`
(valid) and `(10,10),(10,5)` (degenerate). -/
theorem region_capture_exact_or_rejected_witness :
    region_from_clicks 10 10 200 200 = some (10, 10, 190, 190)
  ∧ region_from_clicks 10 10 10 5 = none :=
  ⟨(region_capture_exact_or_rejected 10 10 200 200).1 (by norm_num),
   (region_capture_exact_or_rejected 10 10 10 5).2 (by norm_num)⟩

/-- Claim C2 fails on the code: a typing-start call made while the session is
`Typing` (`is_typing_active = true`, not paused, cursor mid-payload at 5) is
not rejected — with a payload available the call resets the shared session
state and enters a new emission loop (`true`). -/
theorem typing_start_not_single_flight :
    auto_type_start
      { is_typing_active := true, is_typing_paused := false,
        current_typing_position := 5 }
      (some ['h', 'i'])
    = ({ is_typing_active := true, is_typing_paused := false,
         current_typing_position := 0 }, true) := rfl

/-- Claim C2 (amended): the typing start operation performs no single-flight
check at all — whatever the previous session state (including `Typing` and
`Paused`), it unconditionally resets the session flags and cursor and begins
a (possibly second, concurrent) emission loop whenever the payload is
available; the only calls that fail without starting a loop are those whose
payload is still absent after the bounded wait. -/
theorem typing_start_unconditional (prev : TypingSession)
    (payload : Option (List Char)) :
    auto_type_start prev payload
      = ({ is_typing_active := payload.isSome, is_typing_paused := false,
           current_typing_position := 0 }, payload.isSome) := by
  cases payload <;> rfl

/-- Helper for claim C8: feeding the observed event stream through the
`on_click` callback yields the coordinates of the first qualifying
left-button press, if any. -/
theorem runMouseListener_none_eq (evs : List MouseEvent) :
    runMouseListener none evs
      = (evs.find? (fun e => e.pressed && e.left)).map (fun e => (e.x, e.y)) := by
  induction evs with
  | nil => rfl
  | cons e evs ih =>
      cases h : e.pressed && e.left with
      | true =>
          simp [runMouseListener, single_click_on_click, h,
            List.find?_cons_of_pos _ h]
      | false =>
          simp only [runMouseListener, single_click_on_click, h]
          rw [if_pos (by simp), List.find?_cons_of_neg _ (by simp [h])]
          simpa using ih

/-- Claim C8: on every observed event stream the single-pointer-click wait
returns the coordinates of the first qualifying left-button press (or `none`
when no qualifying press occurs — the call is then still blocked, the wait
having no timeout, and `none` is what an interrupted wait would return), and
the call's action trace registers the transient listener exactly once and
deregisters it exactly once, the deregistration being the last action before
the call returns on every exit path. -/
theorem single_click_first_press_and_release (evs : List MouseEvent) :
    (capture_single_click evs).2
      = (evs.find? (fun e => e.pressed && e.left)).map (fun e => (e.x, e.y))
  ∧ (capture_single_click evs).1
      = [ListenerAct.register, ListenerAct.deregister] :=
  ⟨runMouseListener_none_eq evs, rfl⟩

/-- Claim C9 fails on the code: a captured context image survives the
clear-state command.  `on_clear_context` removes only files of the subjective
scratch directory, so after capturing a context image and then clearing, the
context image file is still on disk. -/
theorem clear_state_leaves_context_file :
    ImgFile.context ∈ on_clear_context_files (fsSave ImgFile.context []) := by
  decide

/-- Claim C9 (amended): the clear-state command removes every subjective
screenshot file, and completion of the MCQ inference worker removes the
question image; but clear-state deletes nothing outside the subjective
directory, so a context image present on disk (and likewise a question image
left behind by a solve that aborted before spawning the inference worker)
remains on disk after clear-state. -/
theorem clear_state_file_effects (fs : List ImgFile) (n : Nat) :
    ImgFile.subjectiveShot n ∉ on_clear_context_files fs
  ∧ ImgFile.question ∉ ai_worker_cleanup fs
  ∧ (ImgFile.context ∈ fs → ImgFile.context ∈ on_clear_context_files fs) := by
  refine ⟨?_, ?_, ?_⟩
  · intro h
    simp [on_clear_context_files, List.mem_filter] at h
  · intro h
    simp [ai_worker_cleanup, fsRemove, List.mem_filter] at h
  · intro h
    simp [on_clear_context_files, List.mem_filter, h]

/-- Witness for claim C9 (amended) on a concrete disk state holding one
subjective screenshot and the context image. -/
theorem clear_state_file_effects_witness :
    ImgFile.subjectiveShot 1 ∉
      on_clear_context_files [ImgFile.subjectiveShot 1, ImgFile.context]
  ∧ ImgFile.question ∉ ai_worker_cleanup [ImgFile.question]
  ∧ ImgFile.context ∈
      on_clear_context_files [ImgFile.subjectiveShot 1, ImgFile.context] :=
  ⟨(clear_state_file_effects [ImgFile.subjectiveShot 1, ImgFile.context] 1).1,
   (clear_state_file_effects [ImgFile.question] 1).2.1,
   (clear_state_file_effects [ImgFile.subjectiveShot 1, ImgFile.context] 1).2.2
     (by decide)⟩

/-- Helper for claim C5: after `m` calls the counter equals `m` and the
active key is the primary strictly below the threshold and the secondary from
the threshold on. -/
theorem apiRun_closed_form (primary secondary : List Char)
    (hk : primary ≠ secondary) (m : Nat) :
    (apiRun primary secondary m).api_request_count = m
  ∧ (apiRun primary secondary m).current_api_key
      = (if m < REQUEST_LIMIT_BEFORE_SWITCH then primary else secondary) := by
  induction m with
  | zero => exact ⟨rfl, by rw [if_pos (by decide)]; rfl⟩
  | succ k ih =>
      obtain ⟨hc, hkey⟩ := ih
      constructor
      · dsimp only [apiRun, increment_api_request]
        rw [hc]
        split_ifs <;> rfl
      · dsimp only [apiRun, increment_api_request]
        rw [hc, hkey]
        by_cases hks : k < REQUEST_LIMIT_BEFORE_SWITCH
        · rw [if_pos hks]
          by_cases hk1 : REQUEST_LIMIT_BEFORE_SWITCH ≤ k + 1
          · rw [if_pos ⟨hk1, rfl⟩]
            dsimp only
            rw [if_neg (by omega)]
          · rw [if_neg (fun hand => hk1 hand.1)]
            dsimp only
            rw [if_pos (by omega)]
        · rw [if_neg hks]
          rw [if_neg (fun hand => hk hand.2.symm)]
          dsimp only
          rw [if_neg (by omega)]

/-- Claim C5: with distinct configured credentials, rotation is monotonic and
one-directional — across every sequence of `increment_api_request` calls the
counter counts the calls, the secondary key is active exactly from the
threshold-th call on, and the active credential changes exactly on the call
at which the counter reaches `REQUEST_LIMIT_BEFORE_SWITCH`, never changing
back to the primary afterwards. -/
theorem api_key_rotation_once (primary secondary : List Char)
    (hk : primary ≠ secondary) (n : Nat) :
    (apiRun primary secondary n).api_request_count = n
  ∧ (apiRun primary secondary n).current_api_key
      = (if n < REQUEST_LIMIT_BEFORE_SWITCH then primary else secondary)
  ∧ ((apiRun primary secondary (n + 1)).current_api_key
        ≠ (apiRun primary secondary n).current_api_key
      ↔ n + 1 = REQUEST_LIMIT_BEFORE_SWITCH) := by
  obtain ⟨hc, hkey⟩ := apiRun_closed_form primary secondary hk n
  obtain ⟨-, hkey1⟩ := apiRun_closed_form primary secondary hk (n + 1)
  refine ⟨hc, hkey, ?_⟩
  rw [hkey, hkey1]
  rcases lt_trichotomy (n + 1) REQUEST_LIMIT_BEFORE_SWITCH with h1 | h1 | h1
  · rw [if_pos h1, if_pos (by omega)]
    simp only [ne_eq, not_true_eq_false, false_iff]
    omega
  · rw [if_neg (by omega), if_pos (by omega)]
    simp only [ne_eq]
    constructor
    · intro _; omega
    · intro _; exact fun hsp => hk hsp.symm
  · rw [if_neg (by omega), if_neg (by omega)]
    simp only [ne_eq, not_true_eq_false, false_iff]
    omega

/-- Witness for claim C5 with distinct concrete keys at the rotation point
`n = 20`. -/
theorem api_key_rotation_once_witness :
    (apiRun ['a'] ['b'] 20).api_request_count = 20
  ∧ (apiRun ['a'] ['b'] 20).current_api_key
      = (if 20 < REQUEST_LIMIT_BEFORE_SWITCH then ['a'] else ['b'])
  ∧ ((apiRun ['a'] ['b'] 21).current_api_key
        ≠ (apiRun ['a'] ['b'] 20).current_api_key
      ↔ 21 = REQUEST_LIMIT_BEFORE_SWITCH) :=
  api_key_rotation_once ['a'] ['b'] (by decide) 20

/-- Helper for claim C6: when the whitespace run after a kept character does
not reach a line end, the stripped remainder does not start at a line end
either. -/
theorem atLineEnd_stripTrailWS_of_not_hits (t : List Char)
    (h : wsRunHitsNL t = false) : atLineEnd (stripTrailWS t) = false := by
  cases t with
  | nil => simp [wsRunHitsNL] at h
  | cons c t =>
      by_cases hnl : c = '\n'
      · simp only [wsRunHitsNL, if_pos hnl] at h
        exact absurd h (by simp)
      · cases hws : pySpace c with
        | true =>
            have hrec : wsRunHitsNL t = false := by
              simp only [wsRunHitsNL, if_neg hnl, hws, if_pos] at h
              exact h
            rw [stripTrailWS, if_neg (by simp [hrec])]
            simp [atLineEnd, hnl]
        | false =>
            rw [stripTrailWS, if_neg (by simp [hws])]
            simp [atLineEnd, hnl]

/-- Helper for claim C6: in a string with no trailing whitespace, a
whitespace run that reaches a line end can only start at a line end. -/
theorem atLineEnd_of_noTrailWS_hits (t : List Char) (hn : noTrailWS t = true)
    (hh : wsRunHitsNL t = true) : atLineEnd t = true := by
  induction t with
  | nil => rfl
  | cons c t ih =>
      by_cases hnl : c = '\n'
      · simp [atLineEnd, hnl]
      · cases hws : pySpace c with
        | true =>
            simp only [wsRunHitsNL, if_neg hnl, hws, if_pos] at hh
            simp only [noTrailWS, Bool.and_eq_true, Bool.or_eq_true,
              Bool.not_eq_true'] at hn
            have hend := ih hn.2 hh
            rcases hn.1 with h1 | h1
            · rw [hws] at h1; exact absurd h1 (by simp)
            · rw [hend] at h1; exact absurd h1 (by simp)
        | false =>
            simp only [wsRunHitsNL, if_neg hnl, hws] at hh
            exact absurd hh (by simp)

/-- Helper for claim C6: the stripped string has no trailing whitespace on
any line. -/
theorem noTrailWS_stripTrailWS (l : List Char) :
    noTrailWS (stripTrailWS l) = true := by
  induction l with
  | nil => rfl
  | cons c t ih =>
      by_cases hcond : (pySpace c && wsRunHitsNL t) = true
      · rw [stripTrailWS, if_pos hcond]; exact ih
      · rw [stripTrailWS, if_neg hcond]
        simp only [noTrailWS, Bool.and_eq_true, Bool.or_eq_true,
          Bool.not_eq_true']
        refine ⟨?_, ih⟩
        cases hws : pySpace c with
        | false => exact Or.inl rfl
        | true =>
            refine Or.inr ?_
            have hh : wsRunHitsNL t = false := by
              cases hh2 : wsRunHitsNL t with
              | false => rfl
              | true => exact absurd (by rw [hws, hh2]; rfl) hcond
            exact atLineEnd_stripTrailWS_of_not_hits t hh

/-- Helper for claim C6: stripping is the identity on strings that already
carry no trailing whitespace. -/
theorem stripTrailWS_of_noTrailWS (l : List Char) (hn : noTrailWS l = true) :
    stripTrailWS l = l := by
  induction l with
  | nil => rfl
  | cons c t ih =>
      simp only [noTrailWS, Bool.and_eq_true, Bool.or_eq_true,
        Bool.not_eq_true'] at hn
      have hneg : ¬((pySpace c && wsRunHitsNL t) = true) := by
        intro hcond
        rw [Bool.and_eq_true] at hcond
        have hend := atLineEnd_of_noTrailWS_hits t hn.2 hcond.2
        rcases hn.1 with h1 | h1
        · rw [hcond.1] at h1; cases h1
        · rw [hend] at h1; cases h1
      rw [stripTrailWS, if_neg hneg, ih hn.2]

/-- Helper for claim C6: a string with no trailing whitespace contains no two
consecutive newlines (a newline is itself whitespace standing before a line
end). -/
theorem noDoubleNL_of_noTrailWS (l : List Char) (hn : noTrailWS l = true) :
    noDoubleNL l = true := by
  induction l with
  | nil => rfl
  | cons c t ih =>
      cases t with
      | nil => rfl
      | cons d t2 =>
          rw [noTrailWS, Bool.and_eq_true] at hn
          obtain ⟨hhead, htl⟩ := hn
          have htail := ih htl
          rw [noDoubleNL, Bool.and_eq_true]
          refine ⟨?_, htail⟩
          by_cases hc : c = '\n'
          · by_cases hd : d = '\n'
            · have h1 : pySpace c = true := by rw [hc]; decide
              have h2 : atLineEnd (d :: t2) = true := by simp [atLineEnd, hd]
              rw [h1, h2] at hhead
              exact absurd hhead (by decide)
            · simp [hc, hd]
          · simp [hc]

/-- Helper for claim C6: collapsing is the identity on strings with no two
consecutive newlines. -/
theorem collapseNL_of_noDoubleNL (l : List Char) (hn : noDoubleNL l = true) :
    collapseNL l = l := by
  induction l with
  | nil => rfl
  | cons c t ih =>
      cases t with
      | nil => rfl
      | cons d t2 =>
          rw [noDoubleNL, Bool.and_eq_true] at hn
          obtain ⟨hhead, htl⟩ := hn
          rw [Bool.not_eq_true'] at hhead
          rw [collapseNL, if_neg (by simp [hhead]), ih htl]

/-- Helper for claim C6: the second regex is a no-op after the first — the
MULTILINE trailing-whitespace strip already leaves no two consecutive
newlines, so the whole normalization equals the strip alone. -/
theorem clean_response_eq_stripTrailWS (l : List Char) :
    clean_response l = stripTrailWS l := by
  unfold clean_response
  exact collapseNL_of_noDoubleNL _
    (noDoubleNL_of_noTrailWS _ (noTrailWS_stripTrailWS l))

/-- Claim C6 fails on the code: the normalization does not collapse a run of
blank lines into exactly one blank line — it removes blank lines entirely.
On `"a\n\n\nb"` (two blank lines between `a` and `b`) the claimed transform
would yield `"a\n\nb"` (exactly one blank line); the code yields `"a\nb"`
(no blank line at all). -/
theorem clean_response_kills_blank_lines :
    clean_response ['a', '\n', '\n', '\n', 'b'] = ['a', '\n', 'b']
  ∧ clean_response ['a', '\n', '\n', '\n', 'b'] ≠ ['a', '\n', '\n', 'b'] := by
  decide

/-- Claim C6 (amended): the normalization strips trailing whitespace from
every line, and collapses every run of consecutive blank lines to no blank
line at all (every run of newlines becomes a single newline, because `\s`
matches newlines, so the MULTILINE trailing-whitespace strip already deletes
the blank lines); the whole transform is idempotent. -/
theorem clean_response_normal_form (l : List Char) :
    noTrailWS (clean_response l) = true
  ∧ noDoubleNL (clean_response l) = true
  ∧ clean_response (clean_response l) = clean_response l := by
  have h1 := noTrailWS_stripTrailWS l
  rw [clean_response_eq_stripTrailWS]
  refine ⟨h1, noDoubleNL_of_noTrailWS _ h1, ?_⟩
  rw [clean_response_eq_stripTrailWS, stripTrailWS_of_noTrailWS _ h1]

/-- Invariant of the solve rendezvous, shared by claims about the click step:
in every reachable state of every interleaving, the captured list and option
count are stable, the option signal and globals are published before the main
task moves on, the inference signal implies the worker has finished (so the
shared index is stable), the main task sits at validation or click only after
the inference signal, and at the click step the index is validated in
range. -/
theorem solve_invariant (opts : List (Int × Int)) (s : SolveState)
    (h : SolveReachable opts s) :
    s.captured = opts
  ∧ s.num_options = opts.length
  ∧ (s.mainPc ≠ SolvePc.atPublishOptions →
      s.option_positions_ready = true ∧ s.option_positions_global = some opts)
  ∧ (s.ai_response_ready = true → s.workerPc = WorkerPc.wDone)
  ∧ ((s.mainPc = SolvePc.atValidate ∨ s.mainPc = SolvePc.atClick) →
      s.ai_response_ready = true)
  ∧ (s.mainPc = SolvePc.atClick →
      ∃ i : Int, s.correct_index_global = some i ∧ 1 ≤ i ∧ i ≤ (opts.length : Int)) := by
  induction h with
  | refl =>
      refine ⟨rfl, rfl, ?_, ?_, ?_, ?_⟩
      · intro hc; exact absurd rfl hc
      · intro hr; exact Bool.noConfusion hr
      · intro hc; rcases hc with hc | hc <;> exact SolvePc.noConfusion hc
      · intro hc; exact SolvePc.noConfusion hc
  | tail hsteps hstep ih =>
      obtain ⟨ih1, ih2, ih3, ih4, ih5, ih6⟩ := ih
      cases hstep with
      | publishOptions h =>
          refine ⟨ih1, ih2, ?_, ih4, ?_, ?_⟩
          · intro _
            exact ⟨rfl, congrArg some ih1⟩
          · intro hc; rcases hc with hc | hc <;> exact SolvePc.noConfusion hc
          · intro hc; exact SolvePc.noConfusion hc
      | spawnWorker h hw =>
          have hne := fun (hpc : _ = SolvePc.atPublishOptions) => (SolvePc.noConfusion (h.symm.trans hpc) : False)
          refine ⟨ih1, ih2, fun _ => ih3 hne, ?_, ?_, ?_⟩
          · intro hr
            have h2 := ih4 hr
            rw [hw] at h2
            exact WorkerPc.noConfusion h2
          · intro hc; rcases hc with hc | hc <;> exact SolvePc.noConfusion hc
          · intro hc; exact SolvePc.noConfusion hc
      | workerInference v hwp =>
          refine ⟨ih1, ih2, ih3, ?_, ih5, ?_⟩
          · intro hr
            have h2 := ih4 hr
            rw [hwp] at h2
            exact WorkerPc.noConfusion h2
          · intro hc
            have har := ih5 (Or.inr hc)
            have h2 := ih4 har
            rw [hwp] at h2
            exact WorkerPc.noConfusion h2
      | workerSetEvent hwp =>
          exact ⟨ih1, ih2, ih3, fun _ => rfl, fun _ => rfl, ih6⟩
      | waitAi h hr =>
          have hne := fun (hpc : _ = SolvePc.atPublishOptions) => (SolvePc.noConfusion (h.symm.trans hpc) : False)
          refine ⟨ih1, ih2, fun _ => ih3 hne, ih4, fun _ => hr, ?_⟩
          · intro hc; exact SolvePc.noConfusion hc
      | validateFail h hv =>
          have hne := fun (hpc : _ = SolvePc.atPublishOptions) => (SolvePc.noConfusion (h.symm.trans hpc) : False)
          refine ⟨ih1, ih2, fun _ => ih3 hne, ih4, ?_, ?_⟩
          · intro hc; rcases hc with hc | hc <;> exact SolvePc.noConfusion hc
          · intro hc; exact SolvePc.noConfusion hc
      | validateOk i h hv h1 h2 =>
          have hne := fun (hpc : _ = SolvePc.atPublishOptions) => (SolvePc.noConfusion (h.symm.trans hpc) : False)
          refine ⟨ih1, ih2, fun _ => ih3 hne, ih4, fun _ => ih5 (Or.inl h), ?_⟩
          · intro _
            refine ⟨i, hv, h1, ?_⟩
            rw [← ih2]
            exact h2
      | click h =>
          have hne := fun (hpc : _ = SolvePc.atPublishOptions) => (SolvePc.noConfusion (h.symm.trans hpc) : False)
          refine ⟨ih1, ih2, fun _ => ih3 hne, ih4, ?_, ?_⟩
          · intro hc; rcases hc with hc | hc <;> exact SolvePc.noConfusion hc
          · intro hc; exact SolvePc.noConfusion hc

/-- Claim C1: in the solve-MCQ operation the answer click is never performed
before both the option-position completion signal and the inference
completion signal have been set — in every reachable state, under every
interleaving of the background inference worker with the main solve task, in
which the main task has reached the click step, both
`option_positions_ready` and `ai_response_ready` have already fired. -/
theorem mcq_click_after_both_signals (opts : List (Int × Int)) (s : SolveState)
    (h : SolveReachable opts s) (hc : s.mainPc = SolvePc.atClick) :
    s.option_positions_ready = true ∧ s.ai_response_ready = true := by
  obtain ⟨-, -, ih3, -, ih5, -⟩ := solve_invariant opts s h
  refine ⟨(ih3 ?_).1, ih5 (Or.inr hc)⟩
  rw [hc]; decide

/-- Claim C10: whenever the solve operation reaches the click step, the
resolved index `i` satisfies `1 ≤ i ≤ len(option_positions_global)`, so the
access `option_positions_global[i - 1]` is in bounds and the click targets
the recorded coordinate of that 1-based option. -/
theorem mcq_click_index_in_bounds (opts : List (Int × Int)) (s : SolveState)
    (h : SolveReachable opts s) (hc : s.mainPc = SolvePc.atClick) :
    ∃ i : Int, s.correct_index_global = some i ∧ 1 ≤ i
      ∧ s.option_positions_global = some opts
      ∧ i.toNat ≤ opts.length
      ∧ ∃ pt, opts.get? (i.toNat - 1) = some pt := by
  obtain ⟨-, -, ih3, -, -, ih6⟩ := solve_invariant opts s h
  obtain ⟨i, hv, h1, h2⟩ := ih6 hc
  have hglob := (ih3 (by rw [hc]; decide)).2
  have htn : i.toNat ≤ opts.length := by omega
  refine ⟨i, hv, h1, hglob, htn, ?_⟩
  have hlt : i.toNat - 1 < opts.length := by omega
  cases hq : opts.get? (i.toNat - 1) with
  | none =>
      rw [List.get?_eq_none] at hq
      omega
  | some pt => exact ⟨pt, rfl⟩

/-- Concrete complete interleaving reaching the click step: publish options,
spawn the worker, run the inference (answer `2`), set the inference signal,
pass the wait, validate in range. -/
theorem solveClickWitnessState_reachable :
    SolveReachable solveWitnessOpts solveClickWitnessState :=
  Relation.ReflTransGen.head (SolveStep.publishOptions _ rfl)
    (Relation.ReflTransGen.head (SolveStep.spawnWorker _ rfl rfl)
      (Relation.ReflTransGen.head (SolveStep.workerInference _ (some 2) rfl)
        (Relation.ReflTransGen.head (SolveStep.workerSetEvent _ rfl)
          (Relation.ReflTransGen.head (SolveStep.waitAi _ rfl rfl)
            (Relation.ReflTransGen.head
              (SolveStep.validateOk _ 2 rfl rfl (by decide) (by decide))
              Relation.ReflTransGen.refl)))))

/-- Witness for claim C1: in the concrete interleaving
`solveClickWitnessState_reachable`, at the click step both signals have
fired. -/
theorem mcq_click_after_both_signals_witness :
    solveClickWitnessState.option_positions_ready = true
  ∧ solveClickWitnessState.ai_response_ready = true :=
  mcq_click_after_both_signals solveWitnessOpts solveClickWitnessState
    solveClickWitnessState_reachable rfl

/-- Witness for claim C10: in the same concrete interleaving the resolved
index `2` is in bounds for the two recorded options. -/
theorem mcq_click_index_in_bounds_witness :
    ∃ i : Int, solveClickWitnessState.correct_index_global = some i ∧ 1 ≤ i
      ∧ solveClickWitnessState.option_positions_global = some solveWitnessOpts
      ∧ i.toNat ≤ solveWitnessOpts.length
      ∧ ∃ pt, solveWitnessOpts.get? (i.toNat - 1) = some pt :=
  mcq_click_index_in_bounds solveWitnessOpts solveClickWitnessState
    solveClickWitnessState_reachable rfl

/-- Unfolding helper: the loop body at an in-range index. -/
theorem auto_type_step_eq (p : List Char) (s : TypingLoopState) (char : Char)
    (hg : p.get? s.i = some char) :
    auto_type_step p s =
      (if char = '\n' ∨ char = '\r' then
        { s with i := skipIndent p (s.i + 1),
                 braces := (if char = '{' then s.i :: s.braces
                   else if char = '}' then s.braces.tail else s.braces),
                 out := s.out ++ ['\n'] }
      else
        { s with i := s.i + 1, pos := s.i + 1,
                 braces := (if char = '{' then s.i :: s.braces
                   else if char = '}' then s.braces.tail else s.braces),
                 out := s.out ++ [char] }) := by
  unfold auto_type_step
  rw [hg]

/-- Unfolding helper: the loop body past the end of the payload. -/
theorem auto_type_step_none (p : List Char) (s : TypingLoopState)
    (hg : p.get? s.i = none) : auto_type_step p s = s := by
  unfold auto_type_step
  rw [hg]

/-- The indentation scan never moves backwards. -/
theorem skipIndent_ge (p : List Char) (j : Nat) : j ≤ skipIndent p j :=
  Nat.le_add_right j _

/-- Each productive loop iteration strictly advances the loop index. -/
theorem auto_type_step_i_lt (p : List Char) (s : TypingLoopState)
    (h : s.i < p.length) : s.i < (auto_type_step p s).i := by
  cases hg : p.get? s.i with
  | none => rw [List.get?_eq_none] at hg; omega
  | some char =>
      rw [auto_type_step_eq p s char hg]
      have hskip := skipIndent_ge p (s.i + 1)
      split_ifs <;> dsimp only <;> omega

/-- Each productive loop iteration keeps the cursor at most at the loop index
and never decreases it. -/
theorem auto_type_step_pos (p : List Char) (s : TypingLoopState)
    (hpi : s.pos ≤ s.i) :
    s.pos ≤ (auto_type_step p s).pos
  ∧ (auto_type_step p s).pos ≤ (auto_type_step p s).i := by
  cases hg : p.get? s.i with
  | none => rw [auto_type_step_none p s hg]; exact ⟨le_refl _, hpi⟩
  | some char =>
      rw [auto_type_step_eq p s char hg]
      have hskip := skipIndent_ge p (s.i + 1)
      split_ifs <;> dsimp only <;> exact ⟨by omega, by omega⟩

/-- The loop leaves a state past the end of the payload unchanged. -/
theorem auto_type_loop_stop (p : List Char) (f : Nat) (s : TypingLoopState)
    (h : p.length ≤ s.i) : auto_type_loop p f s = s := by
  cases f with
  | zero => rfl
  | succ f =>
      have e : auto_type_loop p (f + 1) s
          = if s.i < p.length then auto_type_loop p f (auto_type_step p s) else s := rfl
      rw [e, if_neg (by omega)]

/-- Any iteration bound of at least the remaining distance gives the complete
run. -/
theorem auto_type_loop_succ_of_le (p : List Char) (f : Nat) :
    ∀ s : TypingLoopState, p.length - s.i ≤ f →
      auto_type_loop p (f + 1) s = auto_type_loop p f s := by
  induction f with
  | zero =>
      intro s h0
      have hle : p.length ≤ s.i := by omega
      rw [auto_type_loop_stop p 1 s hle, auto_type_loop_stop p 0 s hle]
  | succ f ih =>
      intro s h0
      by_cases hlt : s.i < p.length
      · have e1 : auto_type_loop p (f + 1 + 1) s
            = if s.i < p.length then auto_type_loop p (f + 1) (auto_type_step p s) else s := rfl
        have e2 : auto_type_loop p (f + 1) s
            = if s.i < p.length then auto_type_loop p f (auto_type_step p s) else s := rfl
        rw [e1, e2, if_pos hlt, if_pos hlt]
        refine ih (auto_type_step p s) ?_
        have := auto_type_step_i_lt p s hlt
        omega
      · rw [auto_type_loop_stop p (f + 1 + 1) s (by omega),
          auto_type_loop_stop p (f + 1) s (by omega)]

/-- One-step unrolling of the complete run. -/
theorem auto_type_run_unroll (p : List Char) (s : TypingLoopState)
    (hlt : s.i < p.length) :
    auto_type_run p s = auto_type_run p (auto_type_step p s) := by
  unfold auto_type_run
  cases hp : p.length with
  | zero => omega
  | succ m =>
      have e1 : auto_type_loop p (m + 1) s
          = if s.i < p.length then auto_type_loop p m (auto_type_step p s) else s := rfl
      rw [e1, if_pos hlt]
      have hstep := auto_type_step_i_lt p s hlt
      rw [auto_type_loop_succ_of_le p m (auto_type_step p s) (by omega)]

/-- Pause injections are invisible: the loop with any finite schedule of
pauses computes exactly the unpaused run — after every pause the loop resumes
at the stored position, with the same cursor, brace stack and emitted
output (zero duplicated and zero skipped units). -/
theorem auto_type_loop_paused_eq (p : List Char) (sched : List Bool)
    (s : TypingLoopState) :
    auto_type_loop_paused p sched s = auto_type_run p s := by
  induction sched generalizing s with
  | nil => rfl
  | cons b sched ih =>
      by_cases hlt : s.i < p.length
      · have e : auto_type_loop_paused p (b :: sched) s
            = if s.i < p.length then
                (if b then auto_type_loop_paused p sched s
                 else auto_type_loop_paused p sched (auto_type_step p s))
              else s := rfl
        rw [e, if_pos hlt]
        cases b with
        | true => rw [if_pos rfl]; exact ih s
        | false =>
            rw [if_neg (by simp)]
            rw [ih (auto_type_step p s), ← auto_type_run_unroll p s hlt]
      · have e : auto_type_loop_paused p (b :: sched) s
            = if s.i < p.length then
                (if b then auto_type_loop_paused p sched s
                 else auto_type_loop_paused p sched (auto_type_step p s))
              else s := rfl
        rw [e, if_neg hlt]
        unfold auto_type_run
        rw [auto_type_loop_stop p p.length s (by omega)]

/-- The cursor never decreases along the run and never passes the loop
index. -/
theorem auto_type_loop_pos_mono (p : List Char) (f : Nat) :
    ∀ s : TypingLoopState, s.pos ≤ s.i →
      s.pos ≤ (auto_type_loop p f s).pos
    ∧ (auto_type_loop p f s).pos ≤ (auto_type_loop p f s).i := by
  induction f with
  | zero => intro s h; exact ⟨le_refl _, h⟩
  | succ f ih =>
      intro s h
      by_cases hlt : s.i < p.length
      · have e : auto_type_loop p (f + 1) s = auto_type_loop p f (auto_type_step p s) := by
          have e0 : auto_type_loop p (f + 1) s
              = if s.i < p.length then auto_type_loop p f (auto_type_step p s) else s := rfl
          rw [e0, if_pos hlt]
        rw [e]
        obtain ⟨h1, h2⟩ := auto_type_step_pos p s h
        obtain ⟨h3, h4⟩ := ih (auto_type_step p s) h2
        exact ⟨le_trans h1 h3, h4⟩
      · rw [auto_type_loop_stop p (f + 1) s (by omega)]
        exact ⟨le_refl _, h⟩

/-- When the final payload character is a regular unit — not a newline, not a
carriage return, not a space — the completed run publishes a cursor equal to
the payload length: the last unit is necessarily emitted by the regular
branch, which publishes `current_typing_position = i + 1`. -/
theorem auto_type_loop_pos_final (p : List Char)
    (hlast : ∀ c, p.getLast? = some c → ¬(c = '\n' ∨ c = '\r' ∨ c = ' '))
    (f : Nat) :
    ∀ s : TypingLoopState, p.length - s.i ≤ f → s.i < p.length →
      (auto_type_loop p f s).pos = p.length := by
  induction f with
  | zero => intro s h0 hlt; omega
  | succ f ih =>
      intro s h0 hlt
      have e : auto_type_loop p (f + 1) s = auto_type_loop p f (auto_type_step p s) := by
        have e0 : auto_type_loop p (f + 1) s
            = if s.i < p.length then auto_type_loop p f (auto_type_step p s) else s := rfl
        rw [e0, if_pos hlt]
      rw [e]
      by_cases hlt2 : (auto_type_step p s).i < p.length
      · refine ih (auto_type_step p s) ?_ hlt2
        have := auto_type_step_i_lt p s hlt
        omega
      · rw [auto_type_loop_stop p f _ (by omega)]
        cases hg : p.get? s.i with
        | none => rw [List.get?_eq_none] at hg; omega
        | some char =>
            by_cases hnl : char = '\n' ∨ char = '\r'
            · exfalso
              rw [auto_type_step_eq p s char hg, if_pos hnl] at hlt2
              have hskipge : p.length ≤ skipIndent p (s.i + 1) := by
                dsimp only at hlt2; omega
              by_cases hend : s.i + 1 = p.length
              · have hq : p.get? (p.length - 1) = some char := by
                  rw [← hend]
                  simpa using hg
                have hl2 : p.getLast? = some char := by
                  rw [List.getLast?_eq_get?, hq]
                exact hlast char hl2 (hnl.elim Or.inl (fun h => Or.inr (Or.inl h)))
              · have hd : s.i + 1 < p.length := by omega
                have hle := (List.takeWhile_prefix
                  (l := p.drop (s.i + 1)) (fun c => c = ' ')).length_le
                rw [List.length_drop] at hle
                have hge : p.length - (s.i + 1)
                    ≤ ((p.drop (s.i + 1)).takeWhile (fun c => c = ' ')).length := by
                  unfold skipIndent at hskipge
                  omega
                have hlen : ((p.drop (s.i + 1)).takeWhile (fun c => c = ' ')).length
                    = (p.drop (s.i + 1)).length := by
                  rw [List.length_drop]
                  omega
                have heq : (p.drop (s.i + 1)).takeWhile (fun c => c = ' ')
                    = p.drop (s.i + 1) :=
                  (List.takeWhile_prefix _).eq_of_length hlen
                have hql : p.get? (p.length - 1)
                    = some (p.get ⟨p.length - 1, by omega⟩) := List.get?_eq_get (by omega)
                have hmem : p.get ⟨p.length - 1, by omega⟩ ∈ p.drop (s.i + 1) := by
                  have hqd : (p.drop (s.i + 1)).get? (p.length - 1 - (s.i + 1))
                      = p.get? (p.length - 1) := by
                    rw [List.get?_drop]
                    congr 1
                    omega
                  apply List.get?_mem
                  rw [hqd, hql]
                have hsp : p.get ⟨p.length - 1, by omega⟩ = ' ' := by
                  have hmem2 : p.get ⟨p.length - 1, by omega⟩
                      ∈ (p.drop (s.i + 1)).takeWhile (fun c => c = ' ') := by
                    rw [heq]
                    exact hmem
                  have := List.mem_takeWhile_imp hmem2
                  simpa using this
                have hlastc : p.getLast? = some (p.get ⟨p.length - 1, by omega⟩) := by
                  rw [List.getLast?_eq_get?, hql]
                exact hlast _ hlastc (Or.inr (Or.inr hsp))
            · rw [auto_type_step_eq p s char hg, if_neg hnl]
              rw [auto_type_step_eq p s char hg, if_neg hnl] at hlt2
              dsimp only at hlt2 ⊢
              omega

/-- Claim C3 fails on the code: a session over the payload `"a\n"` finishes
normally (the loop index reaches the payload length, 2) with the cursor still
at `1`, not at the payload length — the newline branch of the loop advances
the index without publishing the cursor, so a payload ending in a newline (or
in indentation skipped after a newline) finishes with the cursor strictly
short of the payload length. -/
theorem typing_cursor_stops_short :
    (auto_type_run ['a', '\n'] typingLoopInit).i = 2
  ∧ (auto_type_run ['a', '\n'] typingLoopInit).pos = 1
  ∧ (auto_type_run ['a', '\n'] typingLoopInit).pos ≠ (['a', '\n'] : List Char).length := by
  decide

/-- Claim C3 (amended): over every payload and every finite pause schedule,
the typing cursor is monotonically non-decreasing across pause/resume cycles;
a pause injected at any position resumes with exactly the stored state — the
paused run equals the unpaused run, with zero duplicated and zero skipped
units; and when the session finishes normally the cursor equals the payload
length provided the final payload character is a regular unit (not a newline,
carriage return, or space).  For payloads ending in a newline or in
post-newline indentation the final cursor instead stops at the index after
the last regularly emitted character (see the counterexample). -/
theorem typing_cursor_monotone_exact_resume (p : List Char) (sched : List Bool)
    (s : TypingLoopState) (hpi : s.pos ≤ s.i) (hne : p ≠ [])
    (hlast : ∀ c, p.getLast? = some c → ¬(c = '\n' ∨ c = '\r' ∨ c = ' ')) :
    s.pos ≤ (auto_type_loop_paused p sched s).pos
  ∧ auto_type_loop_paused p sched s = auto_type_run p s
  ∧ (auto_type_run p typingLoopInit).pos = p.length := by
  have heq := auto_type_loop_paused_eq p sched s
  refine ⟨?_, heq, ?_⟩
  · rw [heq]
    exact (auto_type_loop_pos_mono p p.length s hpi).1
  · have hlen : 0 < p.length := List.length_pos.mpr hne
    exact auto_type_loop_pos_final p hlast p.length typingLoopInit (Nat.sub_le _ _) hlen

/-- Witness for claim C3 (amended) on the payload `"ab"` with one pause
injected before the first unit. -/
theorem typing_cursor_monotone_exact_resume_witness :
    typingLoopInit.pos ≤ (auto_type_loop_paused ['a', 'b'] [true, false] typingLoopInit).pos
  ∧ auto_type_loop_paused ['a', 'b'] [true, false] typingLoopInit
      = auto_type_run ['a', 'b'] typingLoopInit
  ∧ (auto_type_run ['a', 'b'] typingLoopInit).pos = (['a', 'b'] : List Char).length :=
  typing_cursor_monotone_exact_resume ['a', 'b'] [true, false] typingLoopInit
    (by decide) (by decide)
    (by
      intro c hc
      rw [show (['a', 'b'] : List Char).getLast? = some 'b' from rfl] at hc
      rw [Option.some.injEq] at hc
      subst hc
      decide)

/-- Witness for claim C4 at concrete inputs: reply `"3"` with 4 options is
accepted in range; a non-numeric reply `"x"` and the out-of-range reply `"7"`
both fail. -/
theorem option_index_in_range_or_none_witness :
    (1 ≤ (3 : Int) ∧ (3 : Int) ≤ ((4 : Nat) : Int))
  ∧ get_correct_option_index ['x'] 4 = none
  ∧ get_correct_option_index ['7'] 4 = none :=
  ⟨(option_index_in_range_or_none ['3'] 4).1 3 (by decide),
   (option_index_in_range_or_none ['x'] 4).2.1 (by decide),
   (option_index_in_range_or_none ['7'] 4).2.2.1 7 (by decide) (by decide)⟩
